import Mathlib

/-!
Shallow embedding of the lock-free ring-buffer library: the SPSC ring queue
(`lock_free_spsc.hpp`), the two Vyukov-style bounded MPMC queues
(`mpmc_bounded_queue` in the pool header and in the standalone header), and
the bounded worker pool (`bounded_mpmc_pool`), together with proofs of the
specification's claims about them.

Modelling conventions: payload storage that holds no constructed object is
`none`; 64-bit ticket and sequence counters are modelled as `Nat` (the spec's
design notes treat them as non-wrapping); the one place where unsigned
wraparound is observable at realistic inputs, the `n + 1` at the end of
`round_up_pow2`, carries an explicit `% 2 ^ 64`.
-/

set_option maxRecDepth 4000

namespace RingBuffers

/-- One MPMC slot: its sequence number and the payload living in its raw
storage (`none` models storage with no constructed object). -/
structure Slot (α : Type) where
  seq : Nat
  payload : Option α
deriving DecidableEq

/-- State of `mpmc_bounded_queue<T>`; both C++ classes carry the same data
(`capacity_`/`cap_`, the slot array, and the `head_`/`tail_` ticket
counters; `mask_` is derived as `cap - 1`). -/
structure mpmc_bounded_queue (α : Type) where
  cap : Nat
  slots : List (Slot α)
  head : Nat
  tail : Nat
deriving DecidableEq

/-- One smearing step `n |= n >> i` of the `round_up_pow2` loop. -/
def smearStep (n i : Nat) : Nat := n ||| (n >>> i)

/-- The fully unrolled smear loop of `round_up_pow2`:
`for (i = 1; i < 64; i <<= 1) n |= n >> i` visits `i = 1,2,4,8,16,32`. -/
def smearAll (n : Nat) : Nat :=
  smearStep (smearStep (smearStep (smearStep (smearStep (smearStep n 1) 2) 4) 8) 16) 32

/-- `round_up_pow2` from the standalone MPMC header: values are `size_t`,
so the final `n + 1` wraps modulo `2 ^ 64`. -/
def round_up_pow2 (n : Nat) : Nat :=
  if n < 2 then 2 else (smearAll (n - 1) + 1) % 2 ^ 64

/-- The payloads currently alive in the queue's slots. -/
def livePayloads (q : mpmc_bounded_queue α) : List α :=
  q.slots.filterMap (fun s => s.payload)

/-! The MPMC queue used by the pool (the header included by
`bounded_mpmc_pool`): its constructor takes the capacity as-is and asserts
it is a power of two. -/

namespace PoolQueue

/-- Constructor: `capacity_ = cap`, slot `i` initialised with `seq = i` and
no constructed payload. -/
def mkQueue (capacity : Nat) : mpmc_bounded_queue α :=
  { cap := capacity
    slots := (List.range capacity).map (fun i => { seq := i, payload := none })
    head := 0
    tail := 0 }

/-- `try_enqueue`: claim ticket `pos = tail.fetch_add(1)`, inspect slot
`pos & mask`; publish and set `seq = pos + 1` iff `seq == pos`. -/
def try_enqueue (q : mpmc_bounded_queue α) (value : α) : Bool × mpmc_bounded_queue α :=
  let pos := q.tail
  let q1 : mpmc_bounded_queue α := { q with tail := pos + 1 }
  let idx := pos &&& (q.cap - 1)
  let s := q.slots.getD idx { seq := 0, payload := none }
  if s.seq = pos then
    (true, { q1 with slots := q1.slots.set idx { seq := pos + 1, payload := some value } })
  else
    (false, q1)

/-- `try_dequeue`: claim ticket `pos = head.fetch_add(1)`, inspect slot
`pos & mask`; read out and set `seq = pos + capacity` iff `seq == pos + 1`. -/
def try_dequeue (q : mpmc_bounded_queue α) : Bool × Option α × mpmc_bounded_queue α :=
  let pos := q.head
  let q1 : mpmc_bounded_queue α := { q with head := pos + 1 }
  let idx := pos &&& (q.cap - 1)
  let s := q.slots.getD idx { seq := 0, payload := none }
  if s.seq = pos + 1 then
    (true, s.payload, { q1 with slots := q1.slots.set idx { seq := pos + q.cap, payload := none } })
  else
    (false, none, q1)

/-- `capacity()` accessor. -/
def capacity (q : mpmc_bounded_queue α) : Nat := q.cap

/-- Body of the destructor's `while (h != t)` scan, by remaining fuel
`t - h`: a slot whose `seq == h + 1` has its payload destroyed (collected
here) and its `seq` set to `h + capacity`. -/
def dtorLoop (cap : Nat) : List (Slot α) → Nat → Nat → List (Slot α) × List α
  | slots, _, 0 => (slots, [])
  | slots, h, fuel + 1 =>
    let idx := h &&& (cap - 1)
    let s := slots.getD idx { seq := 0, payload := none }
    if s.seq = h + 1 then
      let r := dtorLoop cap (slots.set idx { seq := h + cap, payload := none }) (h + 1) fuel
      (r.1, s.payload.toList ++ r.2)
    else
      dtorLoop cap slots (h + 1) fuel

/-- The payloads destroyed by the pool-header destructor: it scans tickets
`h = head .. tail` and destroys slots observed in the `h + 1` state. -/
def dtorDestroyed (q : mpmc_bounded_queue α) : List α :=
  (dtorLoop q.cap q.slots q.head (q.tail - q.head)).2

end PoolQueue

/-! The standalone "classic (Vyukov-style)" MPMC queue: its constructor
rounds the capacity up with `round_up_pow2`. -/

namespace Vyukov

/-- Constructor: `cap_ = round_up_pow2(capacity)`, slot `i` initialised with
`seq = i` and no constructed payload. -/
def mkQueue (capacity : Nat) : mpmc_bounded_queue α :=
  { cap := round_up_pow2 capacity
    slots := (List.range (round_up_pow2 capacity)).map (fun i => { seq := i, payload := none })
    head := 0
    tail := 0 }

/-- `try_enqueue`, textually the same algorithm as the pool-header queue. -/
def try_enqueue (q : mpmc_bounded_queue α) (x : α) : Bool × mpmc_bounded_queue α :=
  let pos := q.tail
  let q1 : mpmc_bounded_queue α := { q with tail := pos + 1 }
  let idx := pos &&& (q.cap - 1)
  let s := q.slots.getD idx { seq := 0, payload := none }
  if s.seq = pos then
    (true, { q1 with slots := q1.slots.set idx { seq := pos + 1, payload := some x } })
  else
    (false, q1)

/-- `try_dequeue`, textually the same algorithm as the pool-header queue. -/
def try_dequeue (q : mpmc_bounded_queue α) : Bool × Option α × mpmc_bounded_queue α :=
  let pos := q.head
  let q1 : mpmc_bounded_queue α := { q with head := pos + 1 }
  let idx := pos &&& (q.cap - 1)
  let s := q.slots.getD idx { seq := 0, payload := none }
  if s.seq = pos + 1 then
    (true, s.payload, { q1 with slots := q1.slots.set idx { seq := pos + q.cap, payload := none } })
  else
    (false, none, q1)

/-- `capacity()` accessor. -/
def capacity (q : mpmc_bounded_queue α) : Nat := q.cap

/-- The standalone header's destructor destroys only slot metadata (its own
TODO comment records that remaining payloads are not destroyed), so the
list of destroyed payloads is empty. -/
def dtorDestroyed (_ : mpmc_bounded_queue α) : List α := []

end Vyukov

/-- A single-threaded MPMC operation. -/
inductive MpmcOp (α : Type) where
  | enq (v : α)
  | deq
deriving DecidableEq

/-- Run a sequence of operations on the pool-header queue, collecting for
each operation the returned `bool` and (for dequeues) the value written to
the out-parameter. -/
def runPool : mpmc_bounded_queue α → List (MpmcOp α) →
    mpmc_bounded_queue α × List (Bool × Option α)
  | q, [] => (q, [])
  | q, MpmcOp.enq v :: ops =>
    let r := PoolQueue.try_enqueue q v
    let rest := runPool r.2 ops
    (rest.1, (r.1, none) :: rest.2)
  | q, MpmcOp.deq :: ops =>
    let r := PoolQueue.try_dequeue q
    let rest := runPool r.2.2 ops
    (rest.1, (r.1, r.2.1) :: rest.2)

/-- Run a sequence of operations on the standalone queue. -/
def runVyukov : mpmc_bounded_queue α → List (MpmcOp α) →
    mpmc_bounded_queue α × List (Bool × Option α)
  | q, [] => (q, [])
  | q, MpmcOp.enq v :: ops =>
    let r := Vyukov.try_enqueue q v
    let rest := runVyukov r.2 ops
    (rest.1, (r.1, none) :: rest.2)
  | q, MpmcOp.deq :: ops =>
    let r := Vyukov.try_dequeue q
    let rest := runVyukov r.2.2 ops
    (rest.1, (r.1, r.2.1) :: rest.2)

/-- State of `lock_free_spsc_queue<T>`: capacity `cap_`, the raw buffer
(`none` marks a cell with no constructed payload), and the `head_`/`tail_`
indices, which the code keeps below `cap_`. -/
structure lock_free_spsc_queue (α : Type) where
  cap : Nat
  buffer : List (Option α)
  head : Nat
  tail : Nat
deriving DecidableEq

namespace lock_free_spsc_queue

/-- The constructor allocates `cap` uninitialised cells and zeroes both
indices (it asserts `cap` is a power of two). -/
def mkQueue (capacity : Nat) : lock_free_spsc_queue α :=
  { cap := capacity
    buffer := List.replicate capacity none
    head := 0
    tail := 0 }

/-- `next_(i) = (i + 1) & (cap_ - 1)`. -/
def next_ (q : lock_free_spsc_queue α) (i : Nat) : Nat := (i + 1) &&& (q.cap - 1)

/-- `try_push`: full iff `next_(tail) == head`; otherwise construct the
value at `tail` and advance `tail`. -/
def try_push (q : lock_free_spsc_queue α) (value : α) : Bool × lock_free_spsc_queue α :=
  let tail := q.tail
  let next := q.next_ tail
  if next = q.head then
    (false, q)
  else
    (true, { q with buffer := q.buffer.set tail (some value), tail := next })

/-- `try_pop`: empty iff `head == tail`; otherwise move the payload out of
cell `head`, destroy it there, and advance `head`. -/
def try_pop (q : lock_free_spsc_queue α) : Option α × lock_free_spsc_queue α :=
  let head := q.head
  if head = q.tail then
    (none, q)
  else
    (q.buffer.getD head none,
      { q with buffer := q.buffer.set head none, head := q.next_ head })

/-- `capacity()` returns `cap_ - 1` (the N-1 policy). -/
def capacity (q : lock_free_spsc_queue α) : Nat := q.cap - 1

end lock_free_spsc_queue

/-- A single-threaded SPSC operation. -/
inductive SpscOp (α : Type) where
  | push (v : α)
  | pop
deriving DecidableEq

/-- Run a sequence of operations on the SPSC queue, collecting the values
accepted by successful pushes and the values returned by successful pops,
each in submission order. -/
def runSpsc : lock_free_spsc_queue α → List (SpscOp α) →
    lock_free_spsc_queue α × List α × List α
  | q, [] => (q, [], [])
  | q, SpscOp.push v :: ops =>
    let r := q.try_push v
    let rest := runSpsc r.2 ops
    (rest.1, (if r.1 then [v] else []) ++ rest.2.1, rest.2.2)
  | q, SpscOp.pop :: ops =>
    let r := q.try_pop
    let rest := runSpsc r.2 ops
    (rest.1, rest.2.1, r.1.toList ++ rest.2.2)

/-- State of `bounded_mpmc_pool`: the owned MPMC queue, the shutdown flag,
the semaphore permit count, one joined-flag per worker thread, and the log
of callables the pool has executed on the submitting thread. -/
structure bounded_mpmc_pool (α : Type) where
  q : mpmc_bounded_queue α
  stop : Bool
  sem : Nat
  workers : List Bool
  callerRan : List α
deriving DecidableEq

namespace bounded_mpmc_pool

/-- `submit`: fast path enqueues and releases one permit; on a full queue
the callable runs synchronously on the caller; both paths return `true`.
The failed `try_enqueue` still mutated the queue (its ticket counter). -/
def submit (p : bounded_mpmc_pool α) (f : α) : Bool × bounded_mpmc_pool α :=
  let r := PoolQueue.try_enqueue p.q f
  if r.1 then
    (true, { p with q := r.2, sem := p.sem + 1 })
  else
    (true, { p with q := r.2, callerRan := p.callerRan ++ [f] })

/-- `shutdown`: the compare-and-set on `stop_` makes every call after the
first a no-op; the first call releases one permit per worker and joins
every worker. -/
def shutdown (p : bounded_mpmc_pool α) : bounded_mpmc_pool α :=
  if p.stop then
    p
  else
    { p with
      stop := true
      sem := p.sem + p.workers.length
      workers := p.workers.map (fun _ => true) }

end bounded_mpmc_pool

/-- Reachability invariant tying an SPSC queue state to the list of values
it logically holds, oldest first: power-of-two capacity, well-formed
buffer, in-range indices, `tail` is `head` advanced by the pending count,
and cell `(head + j) % cap` holds the `j`-th pending value. -/
structure SpscInv (q : lock_free_spsc_queue α) (k : Nat) (pending : List α) : Prop where
  cap_eq : q.cap = 2 ^ k
  buf_len : q.buffer.length = q.cap
  head_lt : q.head < q.cap
  pending_lt : pending.length < q.cap
  tail_eq : q.tail = (q.head + pending.length) % q.cap
  window : ∀ j v, pending[j]? = some v → q.buffer[(q.head + j) % q.cap]? = some (some v)

/-- A pool whose two-slot queue is full, used to exercise the caller-runs
path of `submit`. -/
def fullPool : bounded_mpmc_pool Nat :=
  { q := (runPool (PoolQueue.mkQueue 2) [MpmcOp.enq 1, MpmcOp.enq 2]).1
    stop := false
    sem := 0
    workers := [false, false]
    callerRan := [] }

/-- A reachable queue state (head 3, tail 2, one live payload) on which both
`try_enqueue` and `try_dequeue` fail. -/
def stuckQueue : mpmc_bounded_queue Nat :=
  (runVyukov (Vyukov.mkQueue 2)
    [MpmcOp.deq, MpmcOp.enq 42, MpmcOp.enq 43, MpmcOp.deq, MpmcOp.deq]).1

/-- A pool with the shutdown flag still clear and two running workers. -/
def runningPool : bounded_mpmc_pool Nat :=
  { q := PoolQueue.mkQueue 2
    stop := false
    sem := 0
    workers := [false, false]
    callerRan := [] }

/-- A pool whose shutdown flag is already set and whose workers are joined. -/
def stoppedPool : bounded_mpmc_pool Nat :=
  { q := PoolQueue.mkQueue 2
    stop := true
    sem := 2
    workers := [true, true]
    callerRan := [] }

/-! ### Bit-smearing lemmas for `round_up_pow2` -/

lemma testBit_smearStep (m i j : Nat) :
    (smearStep m i).testBit j = (m.testBit j || m.testBit (j + i)) := by
  simp [smearStep, Nat.testBit_lor, Nat.testBit_shiftRight, Nat.add_comm]

lemma smearStep_spec {n m k : Nat}
    (H : ∀ j, m.testBit j = true ↔ ∃ d, d < k ∧ n.testBit (j + d) = true) (j : Nat) :
    (smearStep m k).testBit j = true ↔ ∃ d, d < 2 * k ∧ n.testBit (j + d) = true := by
  rw [testBit_smearStep, Bool.or_eq_true, H j, H (j + k)]
  constructor
  · rintro (⟨d, hd, ht⟩ | ⟨d, hd, ht⟩)
    · exact ⟨d, by omega, ht⟩
    · refine ⟨k + d, by omega, ?_⟩
      rwa [← Nat.add_assoc]
  · rintro ⟨d, hd, ht⟩
    by_cases hdk : d < k
    · exact Or.inl ⟨d, hdk, ht⟩
    · refine Or.inr ⟨d - k, by omega, ?_⟩
      have he : j + k + (d - k) = j + d := by omega
      rwa [he]

lemma smearAll_testBit (n j : Nat) :
    (smearAll n).testBit j = true ↔ ∃ d, d < 64 ∧ n.testBit (j + d) = true := by
  have h0 : ∀ j, n.testBit j = true ↔ ∃ d, d < 1 ∧ n.testBit (j + d) = true := by
    intro j
    constructor
    · intro h
      exact ⟨0, by omega, by simpa using h⟩
    · rintro ⟨d, hd, ht⟩
      have hd0 : d = 0 := by omega
      subst hd0
      simpa using ht
  have h1 : ∀ j, (smearStep n 1).testBit j = true ↔
      ∃ d, d < 2 ∧ n.testBit (j + d) = true := by
    intro j
    have h := smearStep_spec h0 j
    norm_num at h
    exact h
  have h2 : ∀ j, (smearStep (smearStep n 1) 2).testBit j = true ↔
      ∃ d, d < 4 ∧ n.testBit (j + d) = true := by
    intro j
    have h := smearStep_spec h1 j
    norm_num at h
    exact h
  have h4 : ∀ j, (smearStep (smearStep (smearStep n 1) 2) 4).testBit j = true ↔
      ∃ d, d < 8 ∧ n.testBit (j + d) = true := by
    intro j
    have h := smearStep_spec h2 j
    norm_num at h
    exact h
  have h8 : ∀ j, (smearStep (smearStep (smearStep (smearStep n 1) 2) 4) 8).testBit j = true ↔
      ∃ d, d < 16 ∧ n.testBit (j + d) = true := by
    intro j
    have h := smearStep_spec h4 j
    norm_num at h
    exact h
  have h16 : ∀ j,
      (smearStep (smearStep (smearStep (smearStep (smearStep n 1) 2) 4) 8) 16).testBit j = true ↔
      ∃ d, d < 32 ∧ n.testBit (j + d) = true := by
    intro j
    have h := smearStep_spec h8 j
    norm_num at h
    exact h
  have h := smearStep_spec h16 j
  norm_num at h
  exact h

lemma testBit_log2_self {n : Nat} (h : 1 ≤ n) : n.testBit n.log2 = true := by
  have h1 : 2 ^ n.log2 ≤ n := Nat.log2_self_le (by omega)
  have h2 : n < 2 ^ (n.log2 + 1) := Nat.lt_log2_self
  have hdiv : n / 2 ^ n.log2 = 1 := by
    apply Nat.div_eq_of_lt_le
    · simpa using h1
    · have hp : 2 ^ (n.log2 + 1) = 2 * 2 ^ n.log2 := by
        rw [Nat.pow_succ]
        ring
      omega
  rw [Nat.testBit_to_div_mod, hdiv]
  decide

lemma smearAll_eq_pow_sub_one {n : Nat} (h1 : 1 ≤ n) (h2 : n < 2 ^ 64) :
    smearAll n = 2 ^ (n.log2 + 1) - 1 := by
  have hlog : n.log2 < 64 := (Nat.log2_lt (by omega)).2 h2
  apply Nat.eq_of_testBit_eq
  intro j
  rw [Nat.testBit_two_pow_sub_one]
  by_cases hj : j < n.log2 + 1
  · have hb : (smearAll n).testBit j = true := by
      rw [smearAll_testBit]
      refine ⟨n.log2 - j, by omega, ?_⟩
      have he : j + (n.log2 - j) = n.log2 := by omega
      rw [he]
      exact testBit_log2_self h1
    rw [hb]
    simp [hj]
  · have hs : ¬ (smearAll n).testBit j = true := by
      rw [smearAll_testBit]
      rintro ⟨d, hd, ht⟩
      have hlt : n < 2 ^ (j + d) :=
        lt_of_lt_of_le Nat.lt_log2_self (Nat.pow_le_pow_right (by omega) (by omega))
      rw [Nat.testBit_lt_two_pow hlt] at ht
      exact Bool.false_ne_true ht
    simp only [Bool.not_eq_true] at hs
    rw [hs]
    simp [hj]

lemma round_up_pow2_eq_of_le {c : Nat} (h2c : 2 ≤ c) (hc : c ≤ 2 ^ 63) :
    round_up_pow2 c = 2 ^ ((c - 1).log2 + 1) := by
  have hlt : c - 1 < 2 ^ 64 := by
    have hp : (2 : Nat) ^ 63 < 2 ^ 64 := by norm_num
    omega
  have hsm := smearAll_eq_pow_sub_one (n := c - 1) (by omega) hlt
  have hlog : (c - 1).log2 < 63 := by
    rw [Nat.log2_lt (by omega)]
    have hp : (0 : Nat) < 2 ^ 63 := Nat.two_pow_pos 63
    omega
  have hple : 2 ^ ((c - 1).log2 + 1) ≤ 2 ^ 63 := Nat.pow_le_pow_right (by omega) (by omega)
  have hp63 : (2 : Nat) ^ 63 < 2 ^ 64 := by norm_num
  have hpos : 0 < 2 ^ ((c - 1).log2 + 1) := Nat.two_pow_pos _
  unfold round_up_pow2
  rw [if_neg (by omega), hsm, Nat.sub_add_cancel (by omega)]
  exact Nat.mod_eq_of_lt (by omega)

lemma round_up_pow2_least {c : Nat} (hc : c ≤ 2 ^ 63) :
    (∃ j, round_up_pow2 c = 2 ^ j) ∧
    max c 2 ≤ round_up_pow2 c ∧
    (∀ j, max c 2 ≤ 2 ^ j → round_up_pow2 c ≤ 2 ^ j) := by
  by_cases h2c : c < 2
  · have hr : round_up_pow2 c = 2 := by
      unfold round_up_pow2
      rw [if_pos h2c]
    refine ⟨⟨1, by rw [hr]; norm_num⟩, by rw [hr]; omega, ?_⟩
    intro j hj
    rw [hr]
    omega
  · have h2c' : 2 ≤ c := by omega
    have hr := round_up_pow2_eq_of_le h2c' hc
    have hub : c - 1 < 2 ^ ((c - 1).log2 + 1) := Nat.lt_log2_self
    have hlb : 2 ^ (c - 1).log2 ≤ c - 1 := Nat.log2_self_le (by omega)
    have hrel : 2 ^ ((c - 1).log2 + 1) = 2 * 2 ^ (c - 1).log2 := by
      rw [Nat.pow_succ]
      ring
    have hposL : 0 < 2 ^ (c - 1).log2 := Nat.two_pow_pos _
    refine ⟨⟨(c - 1).log2 + 1, hr⟩, by rw [hr]; omega, ?_⟩
    intro j hj
    rw [hr]
    have hcj : c ≤ 2 ^ j := le_trans (Nat.le_max_left c 2) hj
    have hLj : 2 ^ (c - 1).log2 < 2 ^ j := by omega
    have hlj : (c - 1).log2 < j := (Nat.pow_lt_pow_iff_right (by omega)).1 hLj
    exact Nat.pow_le_pow_right (by omega) (by omega)

lemma round_up_pow2_two_pow {k : Nat} (hk1 : 1 ≤ k) (hk2 : k ≤ 63) :
    round_up_pow2 (2 ^ k) = 2 ^ k := by
  have h := round_up_pow2_least (c := 2 ^ k) (Nat.pow_le_pow_right (by omega) hk2)
  have hm : (2 : Nat) ≤ 2 ^ k := by
    have h1 : (2 : Nat) ^ 1 ≤ 2 ^ k := Nat.pow_le_pow_right (by omega) hk1
    simpa using h1
  have hmax : max (2 ^ k) 2 = 2 ^ k := Nat.max_eq_left hm
  have hub := h.2.2 k (by rw [hmax])
  have hlb := h.2.1
  omega

/-! ### C2: capacity rounding -/

/-- C2, counterexample: at the concrete requested capacity `2 ^ 63 + 1` the
`size_t` computation `n + 1` in `round_up_pow2` wraps to `0`, so the
constructed queue's `capacity()` is `0` — not a power of two at least
`max(c, 2)` as the claim requires. -/
theorem mpmc_capacity_rounding_counterexample :
    ¬ ((∃ j, Vyukov.capacity (Vyukov.mkQueue (α := Nat) (2 ^ 63 + 1)) = 2 ^ j) ∧
       max (2 ^ 63 + 1) 2 ≤ Vyukov.capacity (Vyukov.mkQueue (α := Nat) (2 ^ 63 + 1))) := by
  rintro ⟨-, hle⟩
  have h0 : Vyukov.capacity (Vyukov.mkQueue (α := Nat) (2 ^ 63 + 1)) = 0 := by decide
  rw [h0] at hle
  omega

/-- C2 (amended to requested capacities `c ≤ 2 ^ 63`, below the `size_t`
overflow of `round_up_pow2`): constructing the rounding MPMC queue yields a
queue whose `capacity()` is the least power of two that is at least
`max(c, 2)`, and whose slot at index `i` has sequence number `i`. -/
theorem mpmc_capacity_rounding (c : Nat) (hc : c ≤ 2 ^ 63) :
    (∃ j, Vyukov.capacity (Vyukov.mkQueue (α := Nat) c) = 2 ^ j) ∧
    max c 2 ≤ Vyukov.capacity (Vyukov.mkQueue (α := Nat) c) ∧
    (∀ j, max c 2 ≤ 2 ^ j → Vyukov.capacity (Vyukov.mkQueue (α := Nat) c) ≤ 2 ^ j) ∧
    (∀ (i : Nat) (s : Slot Nat), (Vyukov.mkQueue (α := Nat) c).slots[i]? = some s → s.seq = i) := by
  have h := round_up_pow2_least (c := c) hc
  refine ⟨h.1, h.2.1, h.2.2, ?_⟩
  intro i s hs
  simp only [Vyukov.mkQueue, List.getElem?_map] at hs
  by_cases hi : i < round_up_pow2 c
  · rw [List.getElem?_range hi] at hs
    simp only [Option.map_some'] at hs
    cases hs
    rfl
  · rw [List.getElem?_eq_none (by simpa using hi)] at hs
    simp at hs

/-- Witness for C2 at requested capacity 5: the queue rounds up to 8. -/
theorem mpmc_capacity_rounding_witness :
    (∃ j, Vyukov.capacity (Vyukov.mkQueue (α := Nat) 5) = 2 ^ j) ∧
    max 5 2 ≤ Vyukov.capacity (Vyukov.mkQueue (α := Nat) 5) ∧
    (∀ j, max 5 2 ≤ 2 ^ j → Vyukov.capacity (Vyukov.mkQueue (α := Nat) 5) ≤ 2 ^ j) ∧
    (∀ (i : Nat) (s : Slot Nat), (Vyukov.mkQueue (α := Nat) 5).slots[i]? = some s → s.seq = i) :=
  mpmc_capacity_rounding 5 (by norm_num)

/-! ### Modular-index arithmetic for the SPSC ring -/

lemma mod_small_cases {cap a : Nat} (h : a < 2 * cap) :
    a % cap = if a < cap then a else a - cap := by
  split
  · exact Nat.mod_eq_of_lt (by assumption)
  · rename_i hge
    rw [Nat.mod_eq_sub_mod (by omega)]
    exact Nat.mod_eq_of_lt (by omega)

lemma add_mod_eq_self_iff {cap h x : Nat} (hh : h < cap) :
    (h + x) % cap = h ↔ x % cap = 0 := by
  have hx : x % cap < cap := Nat.mod_lt _ (by omega)
  rw [Nat.add_mod, Nat.mod_eq_of_lt hh, mod_small_cases (by omega)]
  split <;> omega

lemma add_mod_inj {cap h i j : Nat} (hh : h < cap) (hi : i < cap) (hj : j < cap)
    (he : (h + i) % cap = (h + j) % cap) : i = j := by
  rw [Nat.add_mod h i cap, Nat.add_mod h j cap, Nat.mod_eq_of_lt hh, Nat.mod_eq_of_lt hi,
    Nat.mod_eq_of_lt hj, mod_small_cases (by omega), mod_small_cases (by omega)] at he
  split at he <;> split at he <;> omega

lemma next_eq_mod {q : lock_free_spsc_queue α} {k : Nat} (h : q.cap = 2 ^ k) (i : Nat) :
    q.next_ i = (i + 1) % q.cap := by
  unfold lock_free_spsc_queue.next_
  rw [h, Nat.and_pow_two_sub_one_eq_mod]

/-! ### SPSC step lemmas -/

lemma spsc_cap_pos {q : lock_free_spsc_queue α} {k : Nat} {pending : List α}
    (inv : SpscInv q k pending) : 0 < q.cap := by
  have := inv.head_lt
  omega

lemma spsc_next_tail {q : lock_free_spsc_queue α} {k : Nat} {pending : List α}
    (inv : SpscInv q k pending) :
    q.next_ q.tail = (q.head + (pending.length + 1)) % q.cap := by
  rw [next_eq_mod inv.cap_eq, inv.tail_eq, Nat.mod_add_mod, Nat.add_assoc]

lemma try_push_full {q : lock_free_spsc_queue α} {k : Nat} {pending : List α}
    (inv : SpscInv q k pending) (hfull : pending.length + 1 = q.cap) (v : α) :
    q.try_push v = (false, q) := by
  have hcond : q.next_ q.tail = q.head := by
    rw [spsc_next_tail inv, add_mod_eq_self_iff inv.head_lt, hfull, Nat.mod_self]
  simp [lock_free_spsc_queue.try_push, hcond]

lemma try_push_ok {q : lock_free_spsc_queue α} {k : Nat} {pending : List α}
    (inv : SpscInv q k pending) (hroom : pending.length + 1 < q.cap) (v : α) :
    q.try_push v =
      (true, { q with buffer := q.buffer.set q.tail (some v), tail := q.next_ q.tail }) ∧
    SpscInv { q with buffer := q.buffer.set q.tail (some v), tail := q.next_ q.tail } k
      (pending ++ [v]) := by
  have hcap := spsc_cap_pos inv
  have hcond : q.next_ q.tail ≠ q.head := by
    rw [spsc_next_tail inv, Ne, add_mod_eq_self_iff inv.head_lt,
      Nat.mod_eq_of_lt (by omega)]
    omega
  have htail_lt : q.tail < q.cap := by
    rw [inv.tail_eq]
    exact Nat.mod_lt _ hcap
  refine ⟨by simp [lock_free_spsc_queue.try_push, hcond], ?_⟩
  refine ⟨inv.cap_eq, ?_, inv.head_lt, ?_, ?_, ?_⟩
  · simpa using inv.buf_len
  · simpa using hroom
  · simp only [List.length_append, List.length_cons, List.length_nil]
    rw [spsc_next_tail inv]
  · intro j w hj
    show (q.buffer.set q.tail (some v))[(q.head + j) % q.cap]? = some (some w)
    by_cases hjl : j < pending.length
    · rw [List.getElem?_append_left hjl] at hj
      have hne : q.tail ≠ (q.head + j) % q.cap := by
        rw [inv.tail_eq]
        intro hcon
        have := add_mod_inj inv.head_lt (by omega) (by omega) hcon
        omega
      rw [List.getElem?_set_ne hne]
      exact inv.window j w hj
    · rw [List.getElem?_append_right (by omega)] at hj
      have hj0 : j = pending.length ∧ w = v := by
        rcases Nat.lt_or_ge (j - pending.length) 1 with hlt | hge
        · have hj0 : j - pending.length = 0 := by omega
          rw [hj0] at hj
          simp only [List.getElem?_cons_zero, Option.some.injEq] at hj
          exact ⟨by omega, hj.symm⟩
        · rw [List.getElem?_eq_none (by simpa using hge)] at hj
          simp at hj
      obtain ⟨hje, hwv⟩ := hj0
      subst hje
      subst hwv
      have hidx : (q.head + pending.length) % q.cap = q.tail := inv.tail_eq.symm
      rw [hidx, List.getElem?_set_self (by rw [inv.buf_len]; omega)]

lemma try_pop_empty {q : lock_free_spsc_queue α} {k : Nat}
    (inv : SpscInv q k ([] : List α)) :
    q.try_pop = (none, q) := by
  have hht : q.head = q.tail := by
    have ht := inv.tail_eq
    simp only [List.length_nil, Nat.add_zero] at ht
    rw [ht, Nat.mod_eq_of_lt inv.head_lt]
  simp [lock_free_spsc_queue.try_pop, hht]

lemma spsc_head_ne_tail {q : lock_free_spsc_queue α} {k : Nat} {v₀ : α} {rest : List α}
    (inv : SpscInv q k (v₀ :: rest)) : q.head ≠ q.tail := by
  have hplt : rest.length + 1 < q.cap := by
    have := inv.pending_lt
    simpa using this
  rw [inv.tail_eq]
  intro hcon
  have h2 := (add_mod_eq_self_iff inv.head_lt).1 hcon.symm
  rw [Nat.mod_eq_of_lt (by simpa using hplt)] at h2
  simp at h2

lemma try_pop_ok {q : lock_free_spsc_queue α} {k : Nat} {v₀ : α} {rest : List α}
    (inv : SpscInv q k (v₀ :: rest)) :
    q.try_pop =
      (some v₀, { q with buffer := q.buffer.set q.head none, head := q.next_ q.head }) ∧
    SpscInv { q with buffer := q.buffer.set q.head none, head := q.next_ q.head } k rest := by
  have hcap := spsc_cap_pos inv
  have hplt : rest.length + 1 < q.cap := by
    have := inv.pending_lt
    simpa using this
  have hne : q.head ≠ q.tail := spsc_head_ne_tail inv
  have hval : q.buffer[q.head]? = some (some v₀) := by
    have hw := inv.window 0 v₀ (by simp)
    rwa [Nat.add_zero, Nat.mod_eq_of_lt inv.head_lt] at hw
  have hnext : q.next_ q.head = (q.head + 1) % q.cap := next_eq_mod inv.cap_eq q.head
  constructor
  · simp [lock_free_spsc_queue.try_pop, hne, hval]
  · refine ⟨inv.cap_eq, by simpa using inv.buf_len, ?_, by show rest.length < q.cap; omega,
      ?_, ?_⟩
    · show q.next_ q.head < q.cap
      rw [hnext]
      exact Nat.mod_lt _ hcap
    · show q.tail = (q.next_ q.head + rest.length) % q.cap
      rw [inv.tail_eq, hnext, Nat.mod_add_mod]
      congr 1
      simp only [List.length_cons]
      omega
    · intro j w hj
      have hjlt : j < rest.length := by
        by_contra hcon
        rw [List.getElem?_eq_none (by omega)] at hj
        simp at hj
      have hw := inv.window (j + 1) w (by simpa using hj)
      show (q.buffer.set q.head none)[(q.next_ q.head + j) % q.cap]? = some (some w)
      have hidx : (q.next_ q.head + j) % q.cap = (q.head + (j + 1)) % q.cap := by
        rw [hnext, Nat.mod_add_mod]
        congr 1
        omega
      rw [hidx]
      have hne2 : q.head ≠ (q.head + (j + 1)) % q.cap := by
        intro hcon
        have h2 := (add_mod_eq_self_iff inv.head_lt).1 hcon.symm
        rw [Nat.mod_eq_of_lt (by omega)] at h2
        omega
      rw [List.getElem?_set_ne hne2]
      exact hw

lemma runSpsc_inv {q : lock_free_spsc_queue α} {k : Nat} {pending : List α}
    (inv : SpscInv q k pending) (ops : List (SpscOp α)) :
    ∃ pending', SpscInv (runSpsc q ops).1 k pending' ∧
      pending ++ (runSpsc q ops).2.1 = (runSpsc q ops).2.2 ++ pending' := by
  induction ops generalizing q pending with
  | nil => exact ⟨pending, inv, by simp [runSpsc]⟩
  | cons op ops ih =>
    cases op with
    | push v =>
      by_cases hroom : pending.length + 1 < q.cap
      · obtain ⟨hres, hinv⟩ := try_push_ok inv hroom v
        obtain ⟨p', hp', heq⟩ := ih hinv
        refine ⟨p', by simpa [runSpsc, hres] using hp', ?_⟩
        simp only [runSpsc, hres, if_pos, List.singleton_append]
        rw [List.append_cons]
        exact heq
      · have hfull : pending.length + 1 = q.cap := by
          have := inv.pending_lt
          omega
        have hres := try_push_full inv hfull v
        obtain ⟨p', hp', heq⟩ := ih inv
        refine ⟨p', by simpa [runSpsc, hres] using hp', ?_⟩
        simp only [runSpsc, hres]
        simpa using heq
    | pop =>
      cases pending with
      | nil =>
        have hres := try_pop_empty inv
        obtain ⟨p', hp', heq⟩ := ih inv
        refine ⟨p', by simpa [runSpsc, hres] using hp', ?_⟩
        simp only [runSpsc, hres]
        simpa using heq
      | cons v₀ rest =>
        obtain ⟨hres, hinv⟩ := try_pop_ok inv
        obtain ⟨p', hp', heq⟩ := ih hinv
        refine ⟨p', by simpa [runSpsc, hres] using hp', ?_⟩
        simp only [runSpsc, hres]
        simpa using heq

lemma spscInv_init (α : Type) (k : Nat) :
    SpscInv (lock_free_spsc_queue.mkQueue (α := α) (2 ^ k)) k [] := by
  refine ⟨rfl, by simp [lock_free_spsc_queue.mkQueue], ?_, ?_, ?_, ?_⟩
  · show 0 < 2 ^ k
    exact Nat.two_pow_pos k
  · show ([] : List α).length < 2 ^ k
    simp [Nat.two_pow_pos k]
  · show (0 : Nat) = (0 + ([] : List α).length) % 2 ^ k
    simp
  · intro j w hj
    simp at hj

/-! ### C5: SPSC FIFO -/

/-- C5: for every sequence of interleaved `try_push`/`try_pop` operations on
the SPSC ring queue (sequentially embedded), the values returned by
successful pops are exactly the prefix, in submission order, of the values
accepted by successful pushes. -/
theorem spsc_fifo (α : Type) (k : Nat) (ops : List (SpscOp α)) :
    (runSpsc (lock_free_spsc_queue.mkQueue (α := α) (2 ^ k)) ops).2.2 =
      ((runSpsc (lock_free_spsc_queue.mkQueue (α := α) (2 ^ k)) ops).2.1).take
        ((runSpsc (lock_free_spsc_queue.mkQueue (α := α) (2 ^ k)) ops).2.2).length := by
  obtain ⟨p', -, heq⟩ := runSpsc_inv (spscInv_init α k) ops
  rw [List.nil_append] at heq
  rw [heq]
  exact (List.take_left' rfl).symm

/-! ### C6: SPSC capacity invariants -/

lemma try_push_false_iff {q : lock_free_spsc_queue α} {k : Nat} {pending : List α}
    (inv : SpscInv q k pending) (v : α) :
    ((q.try_push v).1 = false ↔ pending.length = q.cap - 1) ∧
    ((q.try_push v).1 = false ↔ (q.tail + 1) % q.cap = q.head) := by
  have hcap := spsc_cap_pos inv
  have hcond : q.next_ q.tail = q.head ↔ pending.length = q.cap - 1 := by
    rw [spsc_next_tail inv, add_mod_eq_self_iff inv.head_lt]
    constructor
    · intro h
      rcases Nat.lt_or_ge (pending.length + 1) q.cap with hlt | hge
      · rw [Nat.mod_eq_of_lt hlt] at h
        omega
      · have := inv.pending_lt
        omega
    · intro h
      have hfe : pending.length + 1 = q.cap := by omega
      rw [hfe, Nat.mod_self]
  have hres : (q.try_push v).1 = false ↔ q.next_ q.tail = q.head := by
    by_cases hc : q.next_ q.tail = q.head <;> simp [lock_free_spsc_queue.try_push, hc]
  have hmod : (q.tail + 1) % q.cap = q.next_ q.tail := (next_eq_mod inv.cap_eq q.tail).symm
  exact ⟨hres.trans hcond, by rw [hres, hmod]⟩

lemma try_pop_none_iff {q : lock_free_spsc_queue α} {k : Nat} {pending : List α}
    (inv : SpscInv q k pending) :
    ((q.try_pop).1 = none ↔ pending.length = 0) ∧
    ((q.try_pop).1 = none ↔ q.head = q.tail) ∧
    (pending.length ≠ 0 → (q.try_pop).1.isSome = true) := by
  cases pending with
  | nil =>
    have hres := try_pop_empty inv
    have hht : q.head = q.tail := by
      have ht := inv.tail_eq
      simp only [List.length_nil, Nat.add_zero] at ht
      rw [ht, Nat.mod_eq_of_lt inv.head_lt]
    simp [hres, hht]
  | cons v₀ rest =>
    obtain ⟨hres, -⟩ := try_pop_ok inv
    have hne := spsc_head_ne_tail inv
    simp [hres, hne]

/-- C6: on every reachable state of an SPSC ring of size `2 ^ k` (`k ≥ 1`),
the number of successful pushes minus successful pops is at most `2^k - 1`;
`try_push` returns false exactly when that count is `2^k - 1`, equivalently
`(tail+1) mod N = head`; `try_pop` returns empty exactly when the count is
`0`, equivalently `head = tail`; and when the count is `2^k - 1` a pop
still succeeds. -/
theorem spsc_capacity_invariants (α : Type) (k : Nat) (hk : 1 ≤ k)
    (ops : List (SpscOp α)) (v : α) (s : lock_free_spsc_queue α) (acc pops : List α)
    (hrun : runSpsc (lock_free_spsc_queue.mkQueue (α := α) (2 ^ k)) ops = (s, acc, pops)) :
    acc.length - pops.length ≤ 2 ^ k - 1 ∧
    ((s.try_push v).1 = false ↔ acc.length - pops.length = 2 ^ k - 1) ∧
    ((s.try_push v).1 = false ↔ (s.tail + 1) % 2 ^ k = s.head) ∧
    ((s.try_pop).1 = none ↔ acc.length - pops.length = 0) ∧
    ((s.try_pop).1 = none ↔ s.head = s.tail) ∧
    (acc.length - pops.length = 2 ^ k - 1 → (s.try_pop).1.isSome = true) := by
  obtain ⟨p', hinv, heq⟩ := runSpsc_inv (spscInv_init α k) ops
  have hs : (runSpsc (lock_free_spsc_queue.mkQueue (α := α) (2 ^ k)) ops).1 = s := by
    rw [hrun]
  have hacc : (runSpsc (lock_free_spsc_queue.mkQueue (α := α) (2 ^ k)) ops).2.1 = acc := by
    rw [hrun]
  have hpops : (runSpsc (lock_free_spsc_queue.mkQueue (α := α) (2 ^ k)) ops).2.2 = pops := by
    rw [hrun]
  rw [hs] at hinv
  rw [hacc, hpops, List.nil_append] at heq
  have hlen : acc.length = pops.length + p'.length := by
    rw [heq]
    simp
  have hcap : s.cap = 2 ^ k := hinv.cap_eq
  have hplt : p'.length < 2 ^ k := hcap ▸ hinv.pending_lt
  have hpush := try_push_false_iff hinv v
  have hpop := try_pop_none_iff hinv
  have hcnt : acc.length - pops.length = p'.length := by omega
  have h2 : (2 : Nat) ≤ 2 ^ k := by
    have hp : (2 : Nat) ^ 1 ≤ 2 ^ k := Nat.pow_le_pow_right (by omega) hk
    simpa using hp
  refine ⟨by omega, ?_, ?_, ?_, hpop.2.1, ?_⟩
  · rw [hcnt, hpush.1, hcap]
  · rw [hpush.2, hcap]
  · rw [hcnt, hpop.1]
  · intro hc
    exact hpop.2.2 (by omega)

/-- Witness for C6 at `k = 1` on the empty run: the full-queue test is in
the stated relation with the push/pop count. -/
theorem spsc_capacity_invariants_witness :
    (((lock_free_spsc_queue.mkQueue (α := Nat) (2 ^ 1)).try_push 0).1 = false ↔
      ([] : List Nat).length - ([] : List Nat).length = 2 ^ 1 - 1) :=
  (spsc_capacity_invariants Nat 1 (by decide) [] 0
    (lock_free_spsc_queue.mkQueue (2 ^ 1)) [] [] rfl).2.1

/-! ### C1: pool submit -/

/-- C1: `submit` always returns true; when the internal `try_enqueue` fails
(queue full), the callable is executed on the submitting thread — in this
sequential embedding it is appended to the caller-ran log — before
`submit` returns. -/
theorem pool_submit_caller_runs (α : Type) (p : bounded_mpmc_pool α) (f : α) :
    (p.submit f).1 = true ∧
    ((PoolQueue.try_enqueue p.q f).1 = false →
      (p.submit f).2.callerRan = p.callerRan ++ [f]) := by
  by_cases h : (PoolQueue.try_enqueue p.q f).1 <;>
    simp [bounded_mpmc_pool.submit, h]

/-- Witness for C1 on a pool with a full two-slot queue: submitting 7
returns true and runs 7 on the caller. -/
theorem pool_submit_caller_runs_witness :
    (fullPool.submit 7).1 = true ∧ (fullPool.submit 7).2.callerRan = [] ++ [7] :=
  ⟨(pool_submit_caller_runs Nat fullPool 7).1,
    (pool_submit_caller_runs Nat fullPool 7).2 (by decide)⟩

/-! ### C3: MPMC destructor -/

/-- C3, evaluation at the failing input: after a single successful enqueue
of `7` on the freshly constructed standalone queue of capacity 2, one
payload is alive, yet the standalone destructor destroys no payload (its
own TODO comment records the leak); the pool-header destructor, which
implements the spec's scan, destroys exactly that payload. -/
theorem mpmc_standalone_dtor_leaks :
    Vyukov.dtorDestroyed (runVyukov (Vyukov.mkQueue (α := Nat) 2) [MpmcOp.enq 7]).1 = [] ∧
    livePayloads (runVyukov (Vyukov.mkQueue (α := Nat) 2) [MpmcOp.enq 7]).1 = [7] ∧
    PoolQueue.dtorDestroyed (runPool (PoolQueue.mkQueue (α := Nat) 2) [MpmcOp.enq 7]).1 = [7] := by
  decide

/-! ### C4: MPMC single-thread scenario -/

/-- C4: on a fresh MPMC queue of capacity 4, enqueuing 0..5 yields four
successes then two failures, and dequeuing five times yields 0,1,2,3 in
order then a failure. -/
theorem mpmc_single_thread_scenario :
    (runVyukov (Vyukov.mkQueue (α := Nat) 4)
        [MpmcOp.enq 0, MpmcOp.enq 1, MpmcOp.enq 2, MpmcOp.enq 3, MpmcOp.enq 4,
          MpmcOp.enq 5, MpmcOp.deq, MpmcOp.deq, MpmcOp.deq, MpmcOp.deq, MpmcOp.deq]).2 =
      [(true, none), (true, none), (true, none), (true, none), (false, none), (false, none),
        (true, some 0), (true, some 1), (true, some 2), (true, some 3), (false, none)] := by
  decide

/-! ### C7: failed operations advance only their ticket counter -/

/-- C7: a `try_enqueue` that returns false has incremented the tail ticket
counter by exactly one and left every slot (sequence number and payload)
and the head counter unchanged; symmetrically for a failed `try_dequeue`
and the head counter. -/
theorem mpmc_failed_ops_frame (α : Type) (q : mpmc_bounded_queue α) (v : α) :
    ((Vyukov.try_enqueue q v).1 = false →
      (Vyukov.try_enqueue q v).2.tail = q.tail + 1 ∧
      (Vyukov.try_enqueue q v).2.slots = q.slots ∧
      (Vyukov.try_enqueue q v).2.head = q.head) ∧
    ((Vyukov.try_dequeue q).1 = false →
      (Vyukov.try_dequeue q).2.2.head = q.head + 1 ∧
      (Vyukov.try_dequeue q).2.2.slots = q.slots ∧
      (Vyukov.try_dequeue q).2.2.tail = q.tail) := by
  constructor
  · by_cases h : (q.slots[q.tail &&& (q.cap - 1)]?.getD
        { seq := 0, payload := none }).seq = q.tail <;>
      simp [Vyukov.try_enqueue, h]
  · by_cases h : (q.slots[q.head &&& (q.cap - 1)]?.getD
        { seq := 0, payload := none }).seq = q.head + 1 <;>
      simp [Vyukov.try_dequeue, h]

/-- Witness for C7 on a reachable state on which both operations fail. -/
theorem mpmc_failed_ops_frame_witness :
    ((Vyukov.try_enqueue stuckQueue 7).2.tail = stuckQueue.tail + 1 ∧
      (Vyukov.try_enqueue stuckQueue 7).2.slots = stuckQueue.slots ∧
      (Vyukov.try_enqueue stuckQueue 7).2.head = stuckQueue.head) ∧
    ((Vyukov.try_dequeue stuckQueue).2.2.head = stuckQueue.head + 1 ∧
      (Vyukov.try_dequeue stuckQueue).2.2.slots = stuckQueue.slots ∧
      (Vyukov.try_dequeue stuckQueue).2.2.tail = stuckQueue.tail) :=
  ⟨(mpmc_failed_ops_frame Nat stuckQueue 7).1 (by decide),
    (mpmc_failed_ops_frame Nat stuckQueue 7).2 (by decide)⟩

/-! ### C8: abandoned tickets can hide items -/

/-- C8: there is a single-threaded operation sequence (a failed dequeue
consuming ticket 0, then a successful enqueue publishing on ticket 0)
after which `try_dequeue` returns false although an enqueued, undequeued
item is still in the queue. -/
theorem mpmc_abandoned_ticket_hides_item :
    ∃ ops : List (MpmcOp Nat),
      (Vyukov.try_dequeue (runVyukov (Vyukov.mkQueue 2) ops).1).1 = false ∧
      livePayloads (runVyukov (Vyukov.mkQueue 2) ops).1 ≠ [] :=
  ⟨[MpmcOp.deq, MpmcOp.enq 42], by decide⟩

/-! ### C9: shutdown idempotence -/

/-- C9: `shutdown` is idempotent — a second call leaves the pool exactly as
the first left it; the first call on a running pool sets the stop flag,
releases one permit per worker and joins every worker, while a call on an
already-stopped pool changes nothing. -/
theorem pool_shutdown_idempotent (α : Type) (p : bounded_mpmc_pool α) :
    bounded_mpmc_pool.shutdown (bounded_mpmc_pool.shutdown p) =
      bounded_mpmc_pool.shutdown p ∧
    (p.stop = false →
      (bounded_mpmc_pool.shutdown p).stop = true ∧
      (bounded_mpmc_pool.shutdown p).sem = p.sem + p.workers.length ∧
      (bounded_mpmc_pool.shutdown p).workers = p.workers.map (fun _ => true) ∧
      (bounded_mpmc_pool.shutdown p).q = p.q) ∧
    (p.stop = true → bounded_mpmc_pool.shutdown p = p) := by
  by_cases h : p.stop <;> simp [bounded_mpmc_pool.shutdown, h]

/-- Witness for C9: one running pool and one stopped pool. -/
theorem pool_shutdown_idempotent_witness :
    (runningPool.shutdown.stop = true ∧
      runningPool.shutdown.sem = runningPool.sem + runningPool.workers.length ∧
      runningPool.shutdown.workers = runningPool.workers.map (fun _ => true) ∧
      runningPool.shutdown.q = runningPool.q) ∧
    stoppedPool.shutdown = stoppedPool :=
  ⟨(pool_shutdown_idempotent Nat runningPool).2.1 (by decide),
    (pool_shutdown_idempotent Nat stoppedPool).2.2 (by decide)⟩

/-! ### C10: the two MPMC implementations are equivalent -/

lemma runPool_eq_runVyukov (q : mpmc_bounded_queue α) (ops : List (MpmcOp α)) :
    runPool q ops = runVyukov q ops := by
  induction ops generalizing q with
  | nil => rfl
  | cons op ops ih =>
    cases op with
    | enq v =>
      simp only [runPool, runVyukov, ih]
      rfl
    | deq =>
      simp only [runPool, runVyukov, ih]
      rfl

lemma mkQueue_eq (α : Type) {k : Nat} (hk1 : 1 ≤ k) (hk2 : k ≤ 63) :
    (PoolQueue.mkQueue (2 ^ k) : mpmc_bounded_queue α) = Vyukov.mkQueue (2 ^ k) := by
  unfold PoolQueue.mkQueue Vyukov.mkQueue
  rw [round_up_pow2_two_pow hk1 hk2]

/-- C10: for every power-of-two capacity `2 ^ k` (`1 ≤ k ≤ 63`, the
`size_t` range) and every operation sequence, the pool-header queue and the
standalone queue produce identical boolean results, dequeued values and
final states (head, tail and slot sequences), and report equal
`capacity()`. -/
theorem mpmc_implementations_equivalent (α : Type) (k : Nat) (hk1 : 1 ≤ k) (hk2 : k ≤ 63)
    (ops : List (MpmcOp α)) :
    runPool (PoolQueue.mkQueue (2 ^ k)) ops = runVyukov (Vyukov.mkQueue (2 ^ k)) ops ∧
    PoolQueue.capacity (PoolQueue.mkQueue (α := α) (2 ^ k)) =
      Vyukov.capacity (Vyukov.mkQueue (α := α) (2 ^ k)) := by
  rw [mkQueue_eq α hk1 hk2]
  exact ⟨runPool_eq_runVyukov _ ops, rfl⟩

/-- Witness for C10 at capacity `2 ^ 1` on a short operation sequence. -/
theorem mpmc_implementations_equivalent_witness :
    runPool (PoolQueue.mkQueue (2 ^ 1)) [MpmcOp.enq 3, MpmcOp.deq, MpmcOp.deq] =
      runVyukov (Vyukov.mkQueue (2 ^ 1)) [MpmcOp.enq 3, MpmcOp.deq, MpmcOp.deq] ∧
    PoolQueue.capacity (PoolQueue.mkQueue (α := Nat) (2 ^ 1)) =
      Vyukov.capacity (Vyukov.mkQueue (α := Nat) (2 ^ 1)) :=
  mpmc_implementations_equivalent Nat 1 (by decide) (by decide)
    [MpmcOp.enq 3, MpmcOp.deq, MpmcOp.deq]

end RingBuffers
